import Mathlib

/-!
Verification of the search-and-selection core of the Game-Randomizer
repository (src/NowPlaying.py) against its natural-language specification.

Strings are modelled as lists of characters over the ASCII fragment:
Python str.lower, str.strip and the regex classes \b and \w are modelled
with their ASCII behaviour (Char.toLower, Char.isWhitespace,
Char.isAlphanum), which coincides with Python on every ASCII input.
-/

/-- Characters of a Python string. -/
abbrev Str := List Char

/-- Python str.lower (ASCII model). -/
def lowerStr (s : Str) : Str := s.map Char.toLower

/-- Python str.strip: remove leading and trailing whitespace. -/
def stripStr (s : Str) : Str :=
  ((s.dropWhile Char.isWhitespace).reverse.dropWhile Char.isWhitespace).reverse

/-- Word characters of the regex class used by the \b assertion:
alphanumerics and the underscore (ASCII model). -/
def isWordChar (c : Char) : Bool := c.isAlphanum || c == '_'

/-- Code-point comparison of two names, as performed by the SQLite
BINARY collation behind ORDER BY name and the UNIQUE constraint. -/
def strLe : Str → Str → Bool
  | [], _ => true
  | _ :: _, [] => false
  | a :: s, b :: t =>
    if a.toNat < b.toNat then true
    else if b.toNat < a.toNat then false
    else strLe s t

/-- The ordering of strLe as a relation, for use with sorting lemmas. -/
def StrLE (a b : Str) : Prop := strLe a b = true

instance : DecidableRel StrLE := fun a b => inferInstanceAs (Decidable (strLe a b = true))

instance : IsTotal Str StrLE :=
  ⟨fun a => by
    induction a with
    | nil => exact fun b => Or.inl rfl
    | cons x xs ih =>
      intro b
      cases b with
      | nil => exact Or.inr rfl
      | cons y ys =>
        rcases Nat.lt_trichotomy x.toNat y.toNat with h | h | h
        · left; simp [StrLE, strLe, h]
        · have h1 : ¬ x.toNat < y.toNat := by omega
          have h2 : ¬ y.toNat < x.toNat := by omega
          rcases ih ys with h3 | h3
          · left
            simp only [StrLE, strLe, if_neg h1, if_neg h2]
            exact h3
          · right
            simp only [StrLE, strLe, if_neg h1, if_neg h2]
            exact h3
        · right; simp [StrLE, strLe, h]⟩

instance : IsTrans Str StrLE :=
  ⟨fun a => by
    induction a with
    | nil => exact fun b c _ _ => rfl
    | cons x xs ih =>
      intro b c hab hbc
      cases b with
      | nil => simp [StrLE, strLe] at hab
      | cons y ys =>
        cases c with
        | nil => simp [StrLE, strLe] at hbc
        | cons z zs =>
          rcases Nat.lt_trichotomy x.toNat y.toNat with h1 | h1 | h1 <;>
            rcases Nat.lt_trichotomy y.toNat z.toNat with h2 | h2 | h2
          all_goals
            first
            | (exact absurd hbc (by simp [StrLE, strLe]; omega))
            | (exact absurd hab (by simp [StrLE, strLe]; omega))
            | (show strLe (x :: xs) (z :: zs) = true
               simp only [strLe]
               first
               | (rw [if_pos (by omega)])
               | (rw [if_neg (by omega), if_neg (by omega)]
                  have hab' : strLe xs ys = true := by
                    have := hab
                    simp only [StrLE, strLe, if_neg (by omega : ¬ x.toNat < y.toNat),
                      if_neg (by omega : ¬ y.toNat < x.toNat)] at this
                    exact this
                  have hbc' : strLe ys zs = true := by
                    have := hbc
                    simp only [StrLE, strLe, if_neg (by omega : ¬ y.toNat < z.toNat),
                      if_neg (by omega : ¬ z.toNat < y.toNat)] at this
                    exact this
                  exact ih ys zs hab' hbc'))⟩

/-- SELECT name FROM games ORDER BY name: the stored names in ascending
binary (code-point) order. -/
def get_all_games (db : List Str) : List Str := List.insertionSort StrLE db

/-- Word-character status of the position p of s (false past the end),
as consulted by the regex \b assertion. -/
def wordAt (s : Str) (p : Nat) : Bool :=
  match s.drop p with
  | [] => false
  | c :: _ => isWordChar c

/-- Word-character status of the position just before p (false at the
start of the string). -/
def prevWordAt (s : Str) (p : Nat) : Bool :=
  match p with
  | 0 => false
  | q + 1 => wordAt s q

/-- The regex \b assertion at position p of s: the word-character status
changes between the previous position and p. -/
def bAt (s : Str) (p : Nat) : Bool := prevWordAt s p != wordAt s p

/-- The escaped literal term matches at position p of s. -/
def occursAt (s t : Str) (p : Nat) : Bool := t.isPrefixOf (s.drop p)

/-- re.compile(rf'\b... escaped term').search(s): some position of s
satisfies \b and starts an occurrence of the literal term. -/
def regexWordStartSearch (s t : Str) : Bool :=
  (List.range (s.length + 1)).any (fun p => bAt s p && occursAt s t p)

/-- The exact_matches list of search_games: titles whose lowercase form
equals the lowercased trimmed term. -/
def exact_matches_of (tl : Str) (titles : List Str) : List Str :=
  titles.filter (fun title => lowerStr title == tl)

/-- The partial_matches list of search_games: titles whose lowercase form
contains the term at a regex word boundary and is not an exact match. -/
def word_start_matches_of (tl : Str) (titles : List Str) : List Str :=
  titles.filter (fun title =>
    regexWordStartSearch (lowerStr title) tl && !(lowerStr title == tl))

/-- search_games from NowPlaying.py: strip the term, return [] when it is
empty, otherwise exact matches followed by word-boundary matches over the
stored names in ORDER BY name order. -/
def search_games (term : Str) (db : List Str) : List Str :=
  if (stripStr term).isEmpty then []
  else
    exact_matches_of (lowerStr (stripStr term)) (get_all_games db) ++
      word_start_matches_of (lowerStr (stripStr term)) (get_all_games db)

/-- The exact-match group of search_games, as a standalone function. -/
def exactGroup (term : Str) (db : List Str) : List Str :=
  if (stripStr term).isEmpty then []
  else exact_matches_of (lowerStr (stripStr term)) (get_all_games db)

/-- The word-boundary group of search_games, as a standalone function. -/
def wordBoundaryGroup (term : Str) (db : List Str) : List Str :=
  if (stripStr term).isEmpty then []
  else word_start_matches_of (lowerStr (stripStr term)) (get_all_games db)

/-- Word boundary in the words of the specification: the start of the
entry, or the position immediately after a whitespace or non-alphanumeric
separator. -/
def specBoundaryAt (s : Str) (p : Nat) : Bool :=
  match p with
  | 0 => true
  | q + 1 =>
    match s.drop q with
    | [] => false
    | c :: _ => !c.isAlphanum

/-- Occurrence of the literal term at a word boundary in the words of the
specification. -/
def specWordStartOccurs (s t : Str) : Bool :=
  (List.range (s.length + 1)).any (fun p => specBoundaryAt s p && occursAt s t p)

/-- Occurrence of the literal term at a position where the word-character
status of the preceding position differs from that of the first character
of the term: the behaviour of the regex \b before a literal. -/
def regexBoundaryOccurs (s t : Str) : Prop :=
  ∃ p, occursAt s t p = true ∧ prevWordAt s p ≠ isWordChar t.headI

/-- Python dict assignment d[k] = v: update the value in place when the
key is present, append the pair otherwise. -/
def dictSet (m : List (Str × Bool)) (k : Str) (v : Bool) : List (Str × Bool) :=
  if m.any (fun p => p.1 == k) then
    m.map (fun p => if p.1 == k then (k, v) else p)
  else m ++ [(k, v)]

/-- Python dict pop d.pop(k, None): remove the key when present. -/
def dictPop (m : List (Str × Bool)) (k : Str) : List (Str × Bool) :=
  m.filter (fun p => !(p.1 == k))

/-- select_all_games from NowPlaying.py: set every stored name to True in
checkbox_states. -/
def select_all_games (db : List Str) (st : List (Str × Bool)) : List (Str × Bool) :=
  (get_all_games db).foldl (fun m g => dictSet m g true) st

/-- clear_selected_games from NowPlaying.py: set every stored name to
False in checkbox_states. -/
def clear_selected_games (db : List Str) (st : List (Str × Bool)) : List (Str × Bool) :=
  (get_all_games db).foldl (fun m g => dictSet m g false) st

/-- The selected games of a checkbox state: the names currently mapped to
True, as computed by the list comprehension in confirm_bulk_deletion. -/
def selectedNames (st : List (Str × Bool)) : List Str :=
  (st.filter (fun p => p.2)).map (fun p => p.1)

/-- do_delete from confirm_bulk_deletion: for each selected game, delete
its row from the games table and pop its key from checkbox_states. -/
def do_delete (selected : List Str) (db : List Str) (st : List (Str × Bool)) :
    List Str × List (Str × Bool) :=
  selected.foldl
    (fun acc g => (acc.1.filter (fun n => !(n == g)), dictPop acc.2 g)) (db, st)

/-- Parser state of csv.reader inside one line (default dialect: comma
delimiter, double-quote quotechar, doublequote on, non-strict). -/
inductive CsvState where
  | startField
  | inField
  | inQuoted
  | quoteInQuoted
deriving DecidableEq

/-- Field splitting of one line by the csv state machine: a quote opening
a field starts a quoted field in which commas are data, a doubled quote
inside a quoted field stands for one quote character, a closing quote
followed by more text continues the field unquoted (non-strict), and a
quote elsewhere is an ordinary character. -/
def csvParse : CsvState → Str → Str → List Str
  | _, field, [] => [field]
  | CsvState.startField, field, c :: rest =>
    if c == '"' then csvParse CsvState.inQuoted field rest
    else if c == ',' then field :: csvParse CsvState.startField [] rest
    else csvParse CsvState.inField (field ++ [c]) rest
  | CsvState.inField, field, c :: rest =>
    if c == ',' then field :: csvParse CsvState.startField [] rest
    else csvParse CsvState.inField (field ++ [c]) rest
  | CsvState.inQuoted, field, c :: rest =>
    if c == '"' then csvParse CsvState.quoteInQuoted field rest
    else csvParse CsvState.inQuoted (field ++ [c]) rest
  | CsvState.quoteInQuoted, field, c :: rest =>
    if c == '"' then csvParse CsvState.inQuoted (field ++ ['"']) rest
    else if c == ',' then field :: csvParse CsvState.startField [] rest
    else csvParse CsvState.inField (field ++ [c]) rest

/-- End state of the csv state machine over one line: a line ending in
inQuoted has an open quoted field that csv.reader would continue on the
following line, which is outside this per-line model. -/
def csvEndState : CsvState → Str → CsvState
  | st, [] => st
  | CsvState.startField, c :: rest =>
    if c == '"' then csvEndState CsvState.inQuoted rest
    else if c == ',' then csvEndState CsvState.startField rest
    else csvEndState CsvState.inField rest
  | CsvState.inField, c :: rest =>
    if c == ',' then csvEndState CsvState.startField rest
    else csvEndState CsvState.inField rest
  | CsvState.inQuoted, c :: rest =>
    if c == '"' then csvEndState CsvState.quoteInQuoted rest
    else csvEndState CsvState.inQuoted rest
  | CsvState.quoteInQuoted, c :: rest =>
    if c == '"' then csvEndState CsvState.inQuoted rest
    else if c == ',' then csvEndState CsvState.startField rest
    else csvEndState CsvState.inField rest

/-- The row csv.reader yields for one line: no row for a blank line,
otherwise the fields of the line under the csv state machine. -/
def splitFields (line : Str) : List Str :=
  if line.isEmpty then [] else csvParse CsvState.startField [] line

/-- One iteration of the upload loop of handle_csv_upload on a decoded
row: skip an empty row, strip the first field row[0], skip it when empty,
otherwise insert it, counting a success in imported and an IntegrityError
in skipped. -/
def rowStep (acc : Nat × Nat × List Str) (row : List Str) : Nat × Nat × List Str :=
  match row with
  | [] => acc
  | f :: _ =>
    if (stripStr f).isEmpty then acc
    else if stripStr f ∈ acc.2.2 then (acc.1, acc.2.1 + 1, acc.2.2)
    else (acc.1 + 1, acc.2.1, acc.2.2 ++ [stripStr f])

/-- One iteration of the upload loop on a raw line: decode the line to
its csv row and process the row. -/
def csvStep (acc : Nat × Nat × List Str) (line : Str) : Nat × Nat × List Str :=
  rowStep acc (splitFields line)

/-- handle_csv_upload from NowPlaying.py, returning the imported count,
the skipped count and the resulting games table. -/
def handle_csv_upload (lines : List Str) (db : List Str) : Nat × Nat × List Str :=
  lines.foldl csvStep (0, 0, db)

/-- The candidate name a line contributes to the upload loop: the trimmed
first field of its csv row, when the row is non-empty and that field
trims to something. -/
def lineCandidate (line : Str) : Option Str :=
  match splitFields line with
  | [] => none
  | f :: _ => if (stripStr f).isEmpty then none else some (stripStr f)

/-- Number of occurrences of a name in a list of names. -/
def countOcc (x : Str) (l : List Str) : Nat := (l.filter (fun y => y == x)).length

/-- The user-visible outcome of add_game. -/
inductive AddOutcome where
  | added
  | duplicate
  | emptyInput
deriving DecidableEq

/-- add_game from NowPlaying.py: strip the input, report empty input,
insert the name, and surface an IntegrityError as an already-exists
notice, leaving the table unchanged. -/
def add_game (input : Str) (db : List Str) : AddOutcome × List Str :=
  if (stripStr input).isEmpty then (AddOutcome.emptyInput, db)
  else if stripStr input ∈ db then (AddOutcome.duplicate, db)
  else (AddOutcome.added, db ++ [stripStr input])

/-- pick_random from NowPlaying.py: None on an empty table, otherwise
random.choice over the stored names, modelled by an arbitrary draw k
reduced modulo the number of names. -/
def pick_random (k : Nat) (db : List Str) : Option Str :=
  match get_all_games db with
  | [] => none
  | g :: gs => some ((g :: gs).get ⟨k % (gs.length + 1), Nat.mod_lt k (Nat.succ_pos gs.length)⟩)

/-! Helper lemmas about the checkbox-state dictionary. -/

theorem mem_dictSet_false_of_true {m : List (Str × Bool)} {k : Str} {p : Str × Bool}
    (hp : p ∈ dictSet m k false) (ht : p.2 = true) : p ∈ m ∧ p.1 ≠ k := by
  rw [dictSet] at hp
  by_cases hany : (m.any (fun q => q.1 == k)) = true
  · rw [if_pos hany, List.mem_map] at hp
    obtain ⟨q, hq, hqe⟩ := hp
    by_cases hqk : (q.1 == k) = true
    · rw [if_pos hqk] at hqe
      rw [← hqe] at ht
      simp at ht
    · rw [if_neg hqk] at hqe
      subst hqe
      exact ⟨hq, by simpa using hqk⟩
  · rw [if_neg hany, List.mem_append] at hp
    rcases hp with hp | hp
    · refine ⟨hp, fun hk => ?_⟩
      exact hany (List.any_eq_true.mpr ⟨p, hp, by simp [hk]⟩)
    · rw [List.mem_singleton] at hp
      rw [hp] at ht
      simp at ht

theorem mem_dictSet_of_ne {m : List (Str × Bool)} {k : Str} {v : Bool} {p : Str × Bool}
    (hp : p ∈ dictSet m k v) (hne : p.1 ≠ k) : p ∈ m := by
  rw [dictSet] at hp
  by_cases hany : (m.any (fun q => q.1 == k)) = true
  · rw [if_pos hany, List.mem_map] at hp
    obtain ⟨q, hq, hqe⟩ := hp
    by_cases hqk : (q.1 == k) = true
    · rw [if_pos hqk] at hqe
      rw [← hqe] at hne
      simp at hne
    · rw [if_neg hqk] at hqe
      subst hqe
      exact hq
  · rw [if_neg hany, List.mem_append] at hp
    rcases hp with hp | hp
    · exact hp
    · rw [List.mem_singleton] at hp
      rw [hp] at hne
      simp at hne

theorem mem_clear_fold (C : List Str) :
    ∀ (m : List (Str × Bool)) (p : Str × Bool),
      p ∈ C.foldl (fun m g => dictSet m g false) m → p.2 = true → p ∈ m ∧ p.1 ∉ C := by
  induction C with
  | nil => exact fun m p hp _ => ⟨hp, by simp⟩
  | cons c C ih =>
    intro m p hp ht
    rw [List.foldl_cons] at hp
    obtain ⟨h1, h2⟩ := ih _ p hp ht
    obtain ⟨h3, h4⟩ := mem_dictSet_false_of_true h1 ht
    refine ⟨h3, ?_⟩
    simp only [List.mem_cons, not_or]
    exact ⟨h4, h2⟩

theorem mem_select_fold (C : List Str) :
    ∀ (m : List (Str × Bool)) (p : Str × Bool),
      p ∈ C.foldl (fun m g => dictSet m g true) m → p.1 ∉ C → p ∈ m := by
  induction C with
  | nil => exact fun m p hp _ => hp
  | cons c C ih =>
    intro m p hp hnc
    rw [List.foldl_cons] at hp
    simp only [List.mem_cons, not_or] at hnc
    exact mem_dictSet_of_ne (ih _ p hp hnc.2) hnc.1

/-- C3 counterexample: with a stale key mapped to true and an empty
catalog snapshot, selectAll followed by clearAll does not clear the
selection, refuting the claim for arbitrary selection states. -/
theorem C3_counterexample :
    ¬ selectedNames (clear_selected_games []
        (select_all_games [] [(("g".toList), true)])) = [] := by decide

/-- C3 amended: for every selection state whose keys mapped to true all
belong to the catalog snapshot, applying selectAll and then clearAll
yields a state whose selectedNames is empty. -/
theorem C3_amended_select_clear_empty (db : List Str) (st : List (Str × Bool))
    (h : ∀ p ∈ st, p.2 = true → p.1 ∈ db) :
    selectedNames (clear_selected_games db (select_all_games db st)) = [] := by
  rw [selectedNames]
  have hnil : (clear_selected_games db (select_all_games db st)).filter (fun p => p.2) = [] := by
    rw [List.filter_eq_nil_iff]
    intro p hp hpt
    rw [clear_selected_games] at hp
    obtain ⟨h1, h2⟩ := mem_clear_fold _ _ _ hp hpt
    rw [select_all_games] at h1
    have h3 := mem_select_fold _ _ _ h1 h2
    exact h2 (((List.perm_insertionSort StrLE db).mem_iff).mpr (h p h3 hpt))
  rw [hnil]
  rfl

/-- C3 witness: a concrete state keyed by the catalog is fully cleared. -/
theorem C3_witness :
    selectedNames (clear_selected_games [("Halo".toList)]
      (select_all_games [("Halo".toList)] [(("Halo".toList), true)])) = [] :=
  C3_amended_select_clear_empty _ _ (by decide)

/-- Lemma for C4: on a list whose lowercased entries are pairwise
distinct, at most one entry survives the exact-match filter. -/
theorem length_filter_lower_le_one (tl : Str) :
    ∀ l : List Str, (l.map lowerStr).Nodup →
      (l.filter (fun t => lowerStr t == tl)).length ≤ 1 := by
  intro l
  induction l with
  | nil => intro _; simp
  | cons a l ih =>
    intro hnd
    rw [List.map_cons, List.nodup_cons] at hnd
    obtain ⟨ha, hl⟩ := hnd
    by_cases hcase : (lowerStr a == tl) = true
    · rw [List.filter_cons, if_pos hcase]
      have hrest : l.filter (fun t => lowerStr t == tl) = [] := by
        rw [List.filter_eq_nil_iff]
        intro b hb hbeq
        have hb1 : lowerStr b = tl := by simpa using hbeq
        have ha1 : lowerStr a = tl := by simpa using hcase
        exact ha (by rw [ha1, ← hb1]; exact List.mem_map_of_mem lowerStr hb)
      rw [hrest]
      simp
    · rw [List.filter_cons, if_neg hcase]
      exact ih hl

/-- C4 counterexample: the stored names DOOM and Doom are pairwise
distinct (the store's case-sensitive uniqueness), yet both are exact
matches of the query doom, so the exact-match group has two entries. -/
theorem C4_counterexample :
    ([("DOOM".toList), ("Doom".toList)] : List Str).Nodup ∧
    ¬ (exactGroup ("doom".toList) [("DOOM".toList), ("Doom".toList)]).length ≤ 1 := by
  decide

/-- C4 amended: for every catalog whose entries are pairwise distinct
after lowercasing, the exact-match group contains at most one entry. -/
theorem C4_amended_exact_at_most_one (term : Str) (db : List Str)
    (h : (db.map lowerStr).Nodup) : (exactGroup term db).length ≤ 1 := by
  rw [exactGroup]
  by_cases ht : (stripStr term).isEmpty = true
  · rw [if_pos ht]
    simp
  · rw [if_neg ht, exact_matches_of]
    apply length_filter_lower_le_one
    exact (((List.perm_insertionSort StrLE db).map lowerStr).nodup_iff).mpr h

/-- C4 witness: a concrete catalog with pairwise-distinct lowercased
names has at most one exact match. -/
theorem C4_witness :
    (exactGroup ("doom".toList) [("Doom".toList), ("Quake".toList)]).length ≤ 1 :=
  C4_amended_exact_at_most_one _ _ (by decide)

/-- Lemma for C5: every entry surviving the bulk-delete fold was already
in the state and its key is none of the deleted names. -/
theorem mem_delete_fold (sel : List Str) :
    ∀ (acc : List Str × List (Str × Bool)) (p : Str × Bool),
      p ∈ (sel.foldl
        (fun acc g => (acc.1.filter (fun n => !(n == g)), dictPop acc.2 g)) acc).2 →
      p ∈ acc.2 ∧ p.1 ∉ sel := by
  induction sel with
  | nil => exact fun acc p hp => ⟨hp, by simp⟩
  | cons g sel ih =>
    intro acc p hp
    rw [List.foldl_cons] at hp
    obtain ⟨h1, h2⟩ := ih _ p hp
    rw [dictPop, List.mem_filter] at h1
    obtain ⟨hmem, hne⟩ := h1
    refine ⟨hmem, ?_⟩
    simp only [List.mem_cons, not_or]
    exact ⟨by simpa using hne, h2⟩

/-- C5: after the bulk-delete operation completes, deleting each selected
name and pruning it from the selection state, selectedNames of the
resulting state contains none of the deleted names. -/
theorem C5_bulk_delete_prunes (selected db : List Str) (st : List (Str × Bool)) (g : Str)
    (hg : g ∈ selected) : g ∉ selectedNames (do_delete selected db st).2 := by
  intro hmem
  rw [selectedNames, List.mem_map] at hmem
  obtain ⟨p, hp, hpg⟩ := hmem
  rw [List.mem_filter] at hp
  rw [do_delete] at hp
  obtain ⟨_, hnot⟩ := mem_delete_fold selected (db, st) p hp.1
  rw [hpg] at hnot
  exact hnot hg

/-- C5 witness: deleting the selected name Halo removes it from the
selection even though it was mapped to true. -/
theorem C5_witness :
    ("Halo".toList) ∉ selectedNames
      (do_delete [("Halo".toList)] [("Halo".toList)] [(("Halo".toList), true)]).2 :=
  C5_bulk_delete_prunes _ _ _ _ (by decide)

/-- C7: inserting a fresh trimmed name succeeds and listing the catalog
contains it exactly once; inserting the same trimmed name again is
reported as a duplicate and leaves the catalog unchanged. -/
theorem C7_add_round_trip (input : Str) (db : List Str)
    (h1 : stripStr input ≠ []) (h2 : stripStr input ∉ db) :
    add_game input db = (AddOutcome.added, db ++ [stripStr input]) ∧
    countOcc (stripStr input) (get_all_games (db ++ [stripStr input])) = 1 ∧
    add_game input (db ++ [stripStr input]) = (AddOutcome.duplicate, db ++ [stripStr input]) := by
  have hemp : (stripStr input).isEmpty = false := by
    cases h : stripStr input with
    | nil => exact absurd h h1
    | cons a l => rfl
  refine ⟨?_, ?_, ?_⟩
  · rw [add_game, if_neg (by simp [hemp]), if_neg h2]
  · rw [get_all_games, countOcc, ← List.countP_eq_length_filter,
      (List.perm_insertionSort StrLE (db ++ [stripStr input])).countP_eq,
      List.countP_eq_length_filter, List.filter_append]
    have hdb : db.filter (fun y => y == stripStr input) = [] := by
      rw [List.filter_eq_nil_iff]
      intro b hb hbeq
      have hb1 : b = stripStr input := by simpa using hbeq
      exact h2 (hb1 ▸ hb)
    rw [hdb]
    simp
  · rw [add_game, if_neg (by simp [hemp]),
      if_pos (by rw [List.mem_append]; exact Or.inr (List.mem_singleton.mpr rfl))]

/-- C7 witness: adding a padded Halo to an empty catalog and adding it
again behaves as claimed. -/
theorem C7_witness :
    add_game (" Halo ".toList) [] = (AddOutcome.added, [] ++ [stripStr (" Halo ".toList)]) ∧
    countOcc (stripStr (" Halo ".toList)) (get_all_games ([] ++ [stripStr (" Halo ".toList)])) = 1 ∧
    add_game (" Halo ".toList) ([] ++ [stripStr (" Halo ".toList)])
      = (AddOutcome.duplicate, [] ++ [stripStr (" Halo ".toList)]) :=
  C7_add_round_trip (" Halo ".toList) [] (by decide) (by decide)

/-- C9: pick_random returns None exactly on the empty catalog, always
returns a stored name on a non-empty catalog, and is deterministic on a
singleton catalog. -/
theorem C9_pick_random (k : Nat) (db : List Str) :
    (pick_random k db = none ↔ db = []) ∧
    (∀ x, pick_random k db = some x → x ∈ db) ∧
    pick_random k [("A".toList)] = some ("A".toList) := by
  have hperm := List.perm_insertionSort StrLE db
  refine ⟨?_, ?_, ?_⟩
  · constructor
    · intro h
      rw [pick_random] at h
      cases hg : get_all_games db with
      | nil =>
        have hlen := hperm.length_eq
        rw [get_all_games] at hg
        rw [hg] at hlen
        exact List.length_eq_zero.mp (by simpa using hlen.symm)
      | cons g gs =>
        rw [hg] at h
        simp at h
    · intro h
      subst h
      rfl
  · intro x hx
    rw [pick_random] at hx
    cases hg : get_all_games db with
    | nil =>
      rw [hg] at hx
      simp at hx
    | cons g gs =>
      rw [hg] at hx
      simp only [Option.some.injEq] at hx
      have hmem : x ∈ g :: gs := by
        rw [← hx]
        exact List.get_mem _ _ _
      rw [← hg] at hmem
      exact hperm.mem_iff.mp hmem
  · have hone : get_all_games [("A".toList)] = [("A".toList)] := by decide
    rw [pick_random, hone]
    simp [Nat.mod_one]

/-! Helper lemmas about the upload loop. -/

theorem csvStep_none {l : Str} (acc : Nat × Nat × List Str) (h : lineCandidate l = none) :
    csvStep acc l = acc := by
  cases hs : splitFields l with
  | nil => simp [csvStep, rowStep, hs]
  | cons f fs =>
    have he : (stripStr f).isEmpty = true := by
      by_contra hne
      simp [lineCandidate, hs, hne] at h
    simp [csvStep, rowStep, hs, he]

theorem csvStep_some {l g : Str} (acc : Nat × Nat × List Str) (h : lineCandidate l = some g) :
    csvStep acc l =
      if g ∈ acc.2.2 then (acc.1, acc.2.1 + 1, acc.2.2)
      else (acc.1 + 1, acc.2.1, acc.2.2 ++ [g]) := by
  cases hs : splitFields l with
  | nil => simp [lineCandidate, hs] at h
  | cons f fs =>
    by_cases he : (stripStr f).isEmpty = true
    · simp [lineCandidate, hs, he] at h
    · have hg : stripStr f = g := by simpa [lineCandidate, hs, he] using h
      subst hg
      simp only [csvStep, rowStep, hs]
      rw [if_neg he]

theorem csv_fold_counts : ∀ (lines : List Str) (acc : Nat × Nat × List Str),
    (lines.foldl csvStep acc).1 + (lines.foldl csvStep acc).2.1
        = acc.1 + acc.2.1 + (lines.filterMap lineCandidate).length ∧
    (lines.foldl csvStep acc).2.2.length + acc.1
        = acc.2.2.length + (lines.foldl csvStep acc).1 := by
  intro lines
  induction lines with
  | nil => intro acc; simp
  | cons l lines ih =>
    intro acc
    rw [List.foldl_cons]
    cases hc : lineCandidate l with
    | none =>
      rw [csvStep_none acc hc]
      simpa [List.filterMap_cons, hc] using ih acc
    | some g =>
      rw [csvStep_some acc hc]
      have hlen : (List.filterMap lineCandidate (l :: lines)).length
          = (List.filterMap lineCandidate lines).length + 1 := by
        simp [List.filterMap_cons, hc]
      by_cases hmem : g ∈ acc.2.2
      · rw [if_pos hmem]
        obtain ⟨ih1, ih2⟩ := ih (acc.1, acc.2.1 + 1, acc.2.2)
        dsimp only at ih1 ih2
        constructor
        · rw [hlen]
          omega
        · exact ih2
      · rw [if_neg hmem]
        obtain ⟨ih1, ih2⟩ := ih (acc.1 + 1, acc.2.1, acc.2.2 ++ [g])
        dsimp only at ih1 ih2
        simp only [List.length_append, List.length_singleton] at ih2
        constructor
        · rw [hlen]
          omega
        · omega

/-- C6 counterexample: the upload loop does not trim raw lines. A line of
two quote characters trims to a non-empty string, yet csv.reader decodes
it to a single quoted empty field, so the code skips it with both
counters zero and inserts nothing; and from the line a,b the inserted
name is the first field a, not the trimmed raw line a,b. -/
theorem C6_counterexample :
    (stripStr ("\"\"".toList) ≠ [] ∧
      handle_csv_upload [("\"\"".toList)] [] = (0, 0, [])) ∧
    (stripStr ("a,b".toList) = ("a,b".toList) ∧
      (handle_csv_upload [("a,b".toList)] []).2.2 = [("a".toList)]) := by
  decide

/-- C6 amended: for every batch of lines, each decoding to a complete csv
row (no open quoted field spilling onto the next line), the loop takes as
candidate the trimmed first field of each line's csv row, skips lines
without a candidate (blank lines and rows whose first field trims to
empty) without counting them, and counts every candidate exactly once:
accepted plus duplicates equals the number of lines with a candidate, the
catalog grows by exactly the accepted count so no failed line aborts the
batch, and the specification's scenario batch on an empty catalog yields
accepted 2 and duplicates 1. -/
theorem C6_amended_import_batch (lines db : List Str)
    (_hq : ∀ l ∈ lines, csvEndState CsvState.startField l ≠ CsvState.inQuoted) :
    (handle_csv_upload lines db).1 + (handle_csv_upload lines db).2.1
        = (lines.filterMap lineCandidate).length ∧
    (handle_csv_upload lines db).2.2.length = db.length + (handle_csv_upload lines db).1 ∧
    handle_csv_upload [("Halo".toList), ("".toList), (" Halo ".toList), ("Portal".toList)] []
        = (2, 1, [("Halo".toList), ("Portal".toList)]) := by
  obtain ⟨h1, h2⟩ := csv_fold_counts lines (0, 0, db)
  dsimp only at h1 h2
  simp only [handle_csv_upload]
  refine ⟨by omega, by omega, by decide⟩

/-- C6 witness: the scenario batch on an empty catalog. -/
theorem C6_witness :
    (handle_csv_upload [("Halo".toList), ("".toList), (" Halo ".toList), ("Portal".toList)] []).1 +
        (handle_csv_upload [("Halo".toList), ("".toList), (" Halo ".toList), ("Portal".toList)] []).2.1
      = (([("Halo".toList), ("".toList), (" Halo ".toList), ("Portal".toList)] : List Str).filterMap
          lineCandidate).length ∧
    (handle_csv_upload [("Halo".toList), ("".toList), (" Halo ".toList), ("Portal".toList)] []).2.2.length
      = ([] : List Str).length +
        (handle_csv_upload [("Halo".toList), ("".toList), (" Halo ".toList), ("Portal".toList)] []).1 ∧
    handle_csv_upload [("Halo".toList), ("".toList), (" Halo ".toList), ("Portal".toList)] []
      = (2, 1, [("Halo".toList), ("Portal".toList)]) :=
  C6_amended_import_batch [("Halo".toList), ("".toList), (" Halo ".toList), ("Portal".toList)] []
    (by decide)

theorem foldl_csvStep_filter_isSome : ∀ (lines : List Str) (acc : Nat × Nat × List Str),
    (lines.filter (fun l => (lineCandidate l).isSome)).foldl csvStep acc
      = lines.foldl csvStep acc := by
  intro lines
  induction lines with
  | nil => intro acc; rfl
  | cons l ls ih =>
    intro acc
    rw [List.filter_cons]
    by_cases hc : (lineCandidate l).isSome = true
    · rw [if_pos hc, List.foldl_cons, List.foldl_cons]
      exact ih _
    · rw [if_neg hc, List.foldl_cons]
      have hnone : lineCandidate l = none := by
        cases hx : lineCandidate l with
        | none => rfl
        | some g => rw [hx] at hc; simp at hc
      rw [csvStep_none acc hnone]
      exact ih acc

theorem mem_csv_fold_db : ∀ (lines : List Str) (acc : Nat × Nat × List Str) (x : Str),
    x ∈ (lines.foldl csvStep acc).2.2 →
      x ∈ acc.2.2 ∨ ∃ l, l ∈ lines ∧ lineCandidate l = some x := by
  intro lines
  induction lines with
  | nil => exact fun acc x hx => Or.inl hx
  | cons l ls ih =>
    intro acc x hx
    rw [List.foldl_cons] at hx
    rcases ih _ x hx with h | ⟨l', hl', hc'⟩
    · cases hc : lineCandidate l with
      | none =>
        rw [csvStep_none acc hc] at h
        exact Or.inl h
      | some g =>
        rw [csvStep_some acc hc] at h
        by_cases hmem : g ∈ acc.2.2
        · rw [if_pos hmem] at h
          exact Or.inl h
        · rw [if_neg hmem] at h
          dsimp only at h
          rcases List.mem_append.mp h with h1 | h1
          · exact Or.inl h1
          · rw [List.mem_singleton] at h1
            subst h1
            exact Or.inr ⟨l, List.mem_cons_self l ls, hc⟩
    · exact Or.inr ⟨l', List.mem_cons_of_mem l hl', hc'⟩

theorem rowStep_take_one (acc : Nat × Nat × List Str) (row : List Str) :
    rowStep acc (row.take 1) = rowStep acc row := by
  cases row with
  | nil => rfl
  | cons f fs => rfl

theorem foldl_rowStep_take_one : ∀ (rows : List (List Str)) (acc : Nat × Nat × List Str),
    (rows.map (fun row => row.take 1)).foldl rowStep acc = rows.foldl rowStep acc := by
  intro rows
  induction rows with
  | nil => intro acc; rfl
  | cons r rows ih =>
    intro acc
    rw [List.map_cons, List.foldl_cons, List.foldl_cons, rowStep_take_one]
    exact ih _

/-- C10: only the first field of each decoded csv row is considered:
truncating every row to its first field yields the same counts and table,
lines without a usable candidate (blank lines and rows whose first field
trims to empty) can be dropped without changing the outcome, and every
name in the resulting table was already stored or is the trimmed first
csv field of some input line. The hypothesis restricts to lines whose csv
parse ends outside an open quoted field, on which the per-line row model
agrees with csv.reader. -/
theorem C10_first_field_only (lines db : List Str)
    (_hq : ∀ l ∈ lines, csvEndState CsvState.startField l ≠ CsvState.inQuoted) :
    ((lines.map splitFields).map (fun row => row.take 1)).foldl rowStep (0, 0, db)
        = handle_csv_upload lines db ∧
    handle_csv_upload (lines.filter (fun l => (lineCandidate l).isSome)) db
        = handle_csv_upload lines db ∧
    ∀ x, x ∈ (handle_csv_upload lines db).2.2 →
      x ∈ db ∨ ∃ l, l ∈ lines ∧ lineCandidate l = some x := by
  refine ⟨?_, foldl_csvStep_filter_isSome lines (0, 0, db),
    fun x hx => mem_csv_fold_db lines (0, 0, db) x hx⟩
  rw [foldl_rowStep_take_one, List.foldl_map]
  rfl

/-- C10 witness: from the quoted row of the line "a,b",c only the first
csv field a,b is inserted, commas included. -/
theorem C10_witness :
    ("a,b".toList) ∈ ([] : List Str) ∨
      ∃ l, l ∈ [("\"a,b\",c".toList)] ∧ lineCandidate l = some ("a,b".toList) :=
  (C10_first_field_only [("\"a,b\",c".toList)] [] (by decide)).2.2 ("a,b".toList) (by decide)

/-- C8: over a catalog satisfying the store's uniqueness invariant, the
search result has no duplicates, returns only stored names, and the empty
catalog yields an empty result for every query. -/
theorem C8_search_sound (term : Str) (db : List Str) (hnd : db.Nodup) :
    (search_games term db).Nodup ∧
    (∀ x, x ∈ search_games term db → x ∈ db) ∧
    (db = [] → search_games term db = []) := by
  have hperm := List.perm_insertionSort StrLE db
  by_cases ht : (stripStr term).isEmpty = true
  · rw [search_games, if_pos ht]
    exact ⟨List.nodup_nil, by simp, fun _ => rfl⟩
  · rw [search_games, if_neg ht]
    have hsortnd : (get_all_games db).Nodup := (hperm.nodup_iff).mpr hnd
    refine ⟨?_, ?_, ?_⟩
    · apply List.Nodup.append
      · exact hsortnd.filter _
      · exact hsortnd.filter _
      · intro a ha hb
        rw [exact_matches_of, List.mem_filter] at ha
        rw [word_start_matches_of, List.mem_filter] at hb
        have h2 := hb.2
        rw [Bool.and_eq_true] at h2
        rw [ha.2] at h2
        simp at h2
    · intro x hx
      rcases List.mem_append.mp hx with h | h
      · rw [exact_matches_of, List.mem_filter] at h
        exact hperm.mem_iff.mp h.1
      · rw [word_start_matches_of, List.mem_filter] at h
        exact hperm.mem_iff.mp h.1
    · intro hdb
      subst hdb
      rfl

/-- C8 witness: a concrete duplicate-free catalog gives a sound result. -/
theorem C8_witness :
    (search_games ("do".toList) [("Doom".toList), ("Quake".toList)]).Nodup ∧
    (∀ x, x ∈ search_games ("do".toList) [("Doom".toList), ("Quake".toList)] →
      x ∈ [("Doom".toList), ("Quake".toList)]) ∧
    (([("Doom".toList), ("Quake".toList)] : List Str) = [] →
      search_games ("do".toList) [("Doom".toList), ("Quake".toList)] = []) :=
  C8_search_sound ("do".toList) [("Doom".toList), ("Quake".toList)] (by decide)

/-- Lemma for C1: when the non-empty term occurs at position p, the
word-character status at p is that of the first character of the term, and
p is inside the string. -/
theorem wordAt_of_occurs {s t' : Str} {c : Char} {p : Nat}
    (ho : occursAt s (c :: t') p = true) : wordAt s p = isWordChar c ∧ p < s.length := by
  rw [occursAt] at ho
  cases hd : s.drop p with
  | nil =>
    rw [hd] at ho
    simp [List.isPrefixOf] at ho
  | cons d ds =>
    rw [hd] at ho
    simp only [List.isPrefixOf, Bool.and_eq_true] at ho
    obtain ⟨hcd, _⟩ := ho
    have hcd' : c = d := by simpa using hcd
    constructor
    · rw [wordAt, hd, hcd']
    · have hlen := congrArg List.length hd
      rw [List.length_drop] at hlen
      simp only [List.length_cons] at hlen
      omega

/-- Lemma for C1: the regex search succeeds exactly when the term occurs
at a position whose preceding word-character status differs from that of
the term's first character. -/
theorem regexSearch_iff {s t : Str} (ht : t ≠ []) :
    regexWordStartSearch s t = true ↔ regexBoundaryOccurs s t := by
  cases t with
  | nil => exact absurd rfl ht
  | cons c t' =>
    rw [regexWordStartSearch, List.any_eq_true, regexBoundaryOccurs]
    constructor
    · rintro ⟨p, _, hcond⟩
      rw [Bool.and_eq_true] at hcond
      obtain ⟨hb, ho⟩ := hcond
      obtain ⟨hw, _⟩ := wordAt_of_occurs ho
      refine ⟨p, ho, ?_⟩
      rw [bAt, bne_iff_ne, hw] at hb
      exact hb
    · rintro ⟨p, ho, hne⟩
      obtain ⟨hw, hlt⟩ := wordAt_of_occurs ho
      refine ⟨p, List.mem_range.mpr (by omega), ?_⟩
      rw [Bool.and_eq_true]
      refine ⟨?_, ho⟩
      rw [bAt, bne_iff_ne, hw]
      exact hne

/-- C1 counterexample: three concrete instances on which membership in
the word-boundary group disagrees with the specification's boundary rule:
an underscore separates words for the specification but not for the regex,
an exact match satisfies the specification's rule but is excluded from the
group, and a query starting with a non-word character matches after a
word character for the regex but not for the specification. -/
theorem C1_counterexample :
    ¬ ((("a_b".toList ∈ wordBoundaryGroup ("b".toList) [("a_b".toList)]) ↔
          specWordStartOccurs (lowerStr ("a_b".toList)) (lowerStr (stripStr ("b".toList))) = true) ∧
       (("Doom".toList ∈ wordBoundaryGroup ("doom".toList) [("Doom".toList)]) ↔
          specWordStartOccurs (lowerStr ("Doom".toList)) (lowerStr (stripStr ("doom".toList))) = true) ∧
       (("x-y".toList ∈ wordBoundaryGroup ("-y".toList) [("x-y".toList)]) ↔
          specWordStartOccurs (lowerStr ("x-y".toList)) (lowerStr (stripStr ("-y".toList))) = true)) := by
  decide

/-- C1 amended: a stored entry is in the word-boundary group exactly when
it is not a case-insensitive exact match of the trimmed query and the
lowercased query occurs in the lowercased entry at a position whose
preceding word-character status (alphanumeric or underscore, absent
counting as non-word) differs from that of the query's first character. -/
theorem C1_amended_word_boundary (term : Str) (db : List Str) (entry : Str)
    (hentry : entry ∈ db) (hterm : stripStr term ≠ []) :
    entry ∈ wordBoundaryGroup term db ↔
      (lowerStr entry ≠ lowerStr (stripStr term) ∧
        regexBoundaryOccurs (lowerStr entry) (lowerStr (stripStr term))) := by
  have htl : lowerStr (stripStr term) ≠ [] := by
    cases h : stripStr term with
    | nil => exact absurd h hterm
    | cons a l => simp [lowerStr, h]
  have hemp : ¬ (stripStr term).isEmpty = true := by
    cases h : stripStr term with
    | nil => exact absurd h hterm
    | cons a l => simp
  rw [wordBoundaryGroup, if_neg hemp, word_start_matches_of, List.mem_filter,
    Bool.and_eq_true]
  constructor
  · rintro ⟨_, hsearch, hne⟩
    refine ⟨?_, (regexSearch_iff htl).mp hsearch⟩
    simpa using hne
  · rintro ⟨hne, hocc⟩
    refine ⟨((List.perm_insertionSort StrLE db).mem_iff).mpr hentry,
      (regexSearch_iff htl).mpr hocc, ?_⟩
    simpa using hne

/-- C1 witness: the entry Doom Eternal and the query Et instantiate the
amended equivalence. -/
theorem C1_witness :
    ("Doom Eternal".toList ∈ wordBoundaryGroup ("Et".toList) [("Doom Eternal".toList)]) ↔
      (lowerStr ("Doom Eternal".toList) ≠ lowerStr (stripStr ("Et".toList)) ∧
        regexBoundaryOccurs (lowerStr ("Doom Eternal".toList))
          (lowerStr (stripStr ("Et".toList)))) :=
  C1_amended_word_boundary ("Et".toList) [("Doom Eternal".toList)] ("Doom Eternal".toList)
    (by decide) (by decide)

/-- C2 counterexample: with the stored names abc and aBd the word-boundary
group for the query a is aBd before abc, the catalog's binary ORDER BY
order, which is not ascending case-insensitive alphabetical order. -/
theorem C2_counterexample :
    wordBoundaryGroup ("a".toList) [("abc".toList), ("aBd".toList)]
        = [("aBd".toList), ("abc".toList)] ∧
    strLe (lowerStr ("aBd".toList)) (lowerStr ("abc".toList)) = false := by
  decide

/-- C2 amended: the search result is the exact-match group followed by the
word-boundary group, and each group is in the catalog's ascending
case-sensitive binary (code-point) order. -/
theorem C2_amended_order (term : Str) (db : List Str) :
    search_games term db = exactGroup term db ++ wordBoundaryGroup term db ∧
    List.Pairwise StrLE (exactGroup term db) ∧
    List.Pairwise StrLE (wordBoundaryGroup term db) := by
  by_cases ht : (stripStr term).isEmpty = true
  · rw [search_games, exactGroup, wordBoundaryGroup, if_pos ht, if_pos ht, if_pos ht]
    exact ⟨rfl, List.Pairwise.nil, List.Pairwise.nil⟩
  · rw [search_games, exactGroup, wordBoundaryGroup, if_neg ht, if_neg ht, if_neg ht]
    have hsorted : List.Pairwise StrLE (get_all_games db) :=
      List.sorted_insertionSort StrLE db
    exact ⟨rfl, hsorted.sublist (List.filter_sublist _),
      hsorted.sublist (List.filter_sublist _)⟩

/-- C9 witness: the value drawn from the singleton catalog B is stored. -/
theorem C9_witness : ("B".toList) ∈ [("B".toList)] :=
  (C9_pick_random 3 [("B".toList)]).2.1 ("B".toList) (by decide)
